import Mathlib

/-!
Verification of the `signatory` signature-transform wrapper
(`src/signatory/signature_module.py`) against its specification.

The repository under verification contains the Python dispatch layer; the
numerical kernel (`_impl.*`, `backend.*`, `utility.*`) is not part of the
sources, so those functions are modelled from the specification (each such
definition carries a doc comment starting with `Modelled from the spec:`).
All other definitions are direct translations of the Python code in
`signature_module.py`.

Scalars are modelled as rationals (exact arithmetic); a truncated
tensor-algebra element is modelled as a function from words over the channel
alphabet `Fin C` to `ℚ`.  The code stores the blocks of degrees `1..depth`
of such an element; the model carries all words, and `flattenSig depth`
recovers exactly the stored coordinates.  `taMul_agree_of_low_agree` below
shows that the stored coordinates of a product depend only on the stored
coordinates of the factors, so depth truncation is plain restriction in this
model and not a separate operation.
-/

namespace Signatory

/-- A path point: one point of `ℝ^C`, modelled with rational coordinates. -/
abbrev V (C : ℕ) := Fin C → ℚ

/-- A truncated tensor-algebra element, as a function on words over the
channel alphabet.  The degree-`k` block of the stored tensor is the
restriction to words of length `k`; the scalar degree-0 coefficient is the
value at the empty word (which the code does not store and treats as `1`). -/
abbrev TA (C : ℕ) := List (Fin C) → ℚ

/-- All ways of splitting a word `w` into a pair `(u, v)` with `u ++ v = w`. -/
def splits {α : Type} : List α → List (List α × List α)
  | [] => [([], [])]
  | x :: w => ([], x :: w) :: (splits w).map (fun p => (x :: p.1, p.2))

/-- Modelled from the spec: `TensorAlgebraOps.multiply` (§4.1), which is not
under `src/` (it lives in the `_impl` extension).  The product is computed
degree by degree, `c_k = sum over i of a_i ⊗ b_(k-i)`; on the word model this
is exactly the convolution over all splittings of the word. -/
def taMul {C : ℕ} (a b : TA C) : TA C :=
  fun w => ((splits w).map (fun p => a p.1 * b p.2)).sum

/-- The unit of the truncated tensor algebra: 1 in degree 0, zero elsewhere.
This is the signature of an empty increment list. -/
def taOne {C : ℕ} : TA C :=
  fun w => match w with
  | [] => 1
  | _ :: _ => 0

/-- The code stores no degree-0 block and treats it as the constant 1
(spec §4.1: degree-0 is omitted from storage since it is always 1).
`unitize` realises this convention on the model: it forces the value at the
empty word to 1 and keeps all stored (positive-degree) coordinates. -/
def unitize {C : ℕ} (a : TA C) : TA C :=
  fun w => match w with
  | [] => 1
  | _ :: _ => a w

/-- Modelled from the spec: the one-step truncated exponential of a path
increment (§4.3 step 4): degree-1 block is the increment itself and the
degree-`k` block is its `k`-fold outer power divided by `k!`.  The entry at
the word `(i_1, …, i_k)` is `Δ(i_1) ⋯ Δ(i_k) / k!`. -/
def sigExp {C : ℕ} (d : V C) : TA C :=
  fun w => (w.map d).prod / (Nat.factorial w.length : ℚ)

/-- Modelled from the spec: the `PathIncrements` data (§3, §4.3 step 3):
per-step differences of consecutive points. -/
def pathIncrements {C : ℕ} : List (V C) → List (V C)
  | [] => []
  | [_] => []
  | x :: y :: t => (fun i => y i - x i) :: pathIncrements (y :: t)

/-- Modelled from the spec: §4.3 step 5, the left-to-right fold of the
one-step exponentials of the increments via the tensor-algebra product. -/
def sigOfIncrements {C : ℕ} (incs : List (V C)) : TA C :=
  incs.foldl (fun s d => taMul s (sigExp d)) taOne

/-- The running product of a list of tensor-algebra elements, starting at the
unit.  Used to state the combine/chunking lemmas. -/
def listProd {C : ℕ} (l : List (TA C)) : TA C :=
  l.foldl taMul taOne

/-- The `basepoint` argument of `signature`: Python `Union[bool, Tensor]`. -/
inductive Basepoint (C : ℕ) where
  | ofBool (b : Bool)
  | ofTensor (v : V C)

/-- Spec §4.3 step 1 and the `basepoint` documentation: `False` prepends
nothing, `True` prepends the zero point, a tensor is prepended as given. -/
def basepointPrepend {C : ℕ} (bp : Basepoint C) (points : List (V C)) : List (V C) :=
  match bp with
  | .ofBool false => points
  | .ofBool true => (fun _ => 0) :: points
  | .ofTensor v => v :: points

/-- Modelled from the spec: `_impl.signature_forward` (not under `src/`) on a
single batch element with `stream=False`, following §4.3: prepend the
basepoint, reverse if `inverse`, take increments, fold their exponentials,
then multiply the optional `initial` signature on.  The side of the
`initial` multiplication under `inverse` follows the source documentation of
`signature` ("the appropriate modifications are made if `inverse=True`"):
for the inverse signature the pre-existing signature composes on the right,
matching the online-computation contract. -/
def sigForwardOne {C : ℕ} (points : List (V C)) (bp : Basepoint C) (inverse : Bool)
    (initial : Option (TA C)) : TA C :=
  let pts := basepointPrepend bp points
  let pts2 := if inverse then pts.reverse else pts
  let sig := sigOfIncrements (pathIncrements pts2)
  match initial with
  | none => sig
  | some init => if inverse then taMul sig (unitize init) else taMul (unitize init) sig

/-- Modelled from the spec: the stream-mode fold (§4.3 step 5), retaining
every partial product, one per consumed increment. -/
def streamFold {C : ℕ} : TA C → List (V C) → List (TA C)
  | _, [] => []
  | s, d :: rest =>
    let s2 := taMul s (sigExp d)
    s2 :: streamFold s2 rest

/-- Modelled from the spec: `_impl.signature_forward` on a single batch
element with `stream=True` (§4.3): as `sigForwardOne` but every partial
signature is retained, and the optional `initial` is multiplied onto every
retained result (§4.3 step 6). -/
def sigForwardStreamOne {C : ℕ} (points : List (V C)) (bp : Basepoint C) (inverse : Bool)
    (initial : Option (TA C)) : List (TA C) :=
  let pts := basepointPrepend bp points
  let pts2 := if inverse then pts.reverse else pts
  let liftInit : TA C → TA C := fun s =>
    match initial with
    | none => s
    | some init => if inverse then taMul s (unitize init) else taMul (unitize init) s
  (streamFold taOne (pathIncrements pts2)).map liftInit

/-- All words of length `k` over `Fin C`, in index-major order (the
flattening order of the stored outer-product blocks). -/
def allWords (C : ℕ) : ℕ → List (List (Fin C))
  | 0 => [[]]
  | k + 1 => (List.finRange C).flatMap (fun i => (allWords C k).map (fun w => i :: w))

/-- The stored words of a depth-`D` signature: degrees 1 through `D`, in
increasing degree order (spec §3: blocks are contiguous and ordered by
increasing degree). -/
def sigWords (C D : ℕ) : List (List (Fin C)) :=
  (List.range D).flatMap (fun k => allWords C (k + 1))

/-- The stored flat tensor of a depth-`D` signature: the values of the model
element on all stored words. -/
def flattenSig {C : ℕ} (D : ℕ) (a : TA C) : List ℚ :=
  (sigWords C D).map a

/-- Modelled from the spec: `_impl.signature_channels` (not under `src/`),
given by the §6 formula `channels + channels^2 + ... + channels^depth`. -/
def signature_channels (channels depth : ℕ) : ℕ :=
  ((List.range depth).map (fun k => channels ^ (k + 1))).sum

/-- Model of `torch.Tensor.narrow` on the last dimension: the slice
`[start, start+length)`, failing when it runs past the end. -/
def torchNarrowLast (t : List ℚ) (start length : ℕ) : Except String (List ℚ) :=
  if start + length ≤ t.length then .ok ((t.drop start).take length)
  else .error "narrow out of range"

/-- Translation of `extract_signature_term` (signature_module.py lines
338-345): reject `channels < 1`, then slice the degree-`depth` block out of
the last dimension. -/
def extract_signature_term (sigtensor : List ℚ) (channels depth : ℕ) :
    Except String (List ℚ) :=
  if channels < 1 then .error "in_channels must be at least 1"
  else
    let start := if depth = 1 then 0 else signature_channels channels (depth - 1)
    torchNarrowLast sigtensor start (channels ^ depth)

/-- Modelled from the spec: one multiplication step of
`_impl.signature_combine_forward` (not under `src/`): the
`TensorAlgebraOps.multiply` of §4.1 applied to two stored signatures, whose
unstored degree-0 coefficients are implicitly 1 (`unitize`). -/
def combineMul {C : ℕ} (a b : TA C) : TA C :=
  taMul (unitize a) (unitize b)

/-- Modelled from the spec: `_impl.signature_combine_forward` (§4.6), the
left-to-right fold of the tensor-algebra product across the list of
signatures (Chen's identity).  Empty input is outside the contract. -/
def signature_combine_forward {C : ℕ} : List (TA C) → Option (TA C)
  | [] => none
  | s :: rest => some (rest.foldl combineMul s)

/-- Translation of `multi_signature_combine` (signature_module.py lines
404-433): if `inverse` the list order is reversed, then the signatures are
combined by `_SignatureCombineFunction`, i.e. `signature_combine_forward`. -/
def multi_signature_combine {C : ℕ} (sigtensors : List (TA C)) (inverse : Bool) :
    Option (TA C) :=
  signature_combine_forward (if inverse then sigtensors.reverse else sigtensors)

/-- Translation of `signature_combine` (signature_module.py line 401): it
delegates to `multi_signature_combine` on the two-element list. -/
def signature_combine {C : ℕ} (sigtensor1 sigtensor2 : TA C) (inverse : Bool) :
    Option (TA C) :=
  multi_signature_combine [sigtensor1, sigtensor2] inverse

/-- The provenance flags stored on the autograd context by
`interpet_forward_args` (signature_module.py lines 34-40). -/
structure SigCtx where
  basepoint_is_tensor : Bool
  initial_is_tensor : Bool

/-- Translation of `interpet_forward_args` (signature_module.py lines 34-40),
restricted to the provenance flags: `isinstance(basepoint, torch.Tensor)`
and `isinstance(initial, torch.Tensor)` (where `initial` is `None` or a
tensor). -/
def interpet_forward_args {C : ℕ} (basepoint : Basepoint C) (initial : Option (TA C)) :
    SigCtx :=
  { basepoint_is_tensor :=
      match basepoint with
      | .ofTensor _ => true
      | .ofBool _ => false,
    initial_is_tensor := initial.isSome }

/-- Translation of `interpret_backward_grad` (signature_module.py lines
43-48): the basepoint and initial gradients are replaced by `None` unless the
corresponding argument was supplied as a tensor. -/
def interpret_backward_grad {C : ℕ} (ctx : SigCtx) (grad_basepoint : Option (V C))
    (grad_initial : Option (TA C)) : Option (V C) × Option (TA C) :=
  (if ctx.basepoint_is_tensor then grad_basepoint else none,
   if ctx.initial_is_tensor then grad_initial else none)

/-- Translation of the gradient routing of `_SignatureFunction.backward`
(signature_module.py lines 68-79).  `_impl.signature_backward` (not under
`src/`) always produces gradients for the path, the basepoint and the
initial signature; they are abstract parameters here.  The wrapper masks the
basepoint and initial gradients through `interpret_backward_grad`. -/
def signatureFunctionBackward {C : ℕ} (ctx : SigCtx) (grad_path : List (V C))
    (grad_basepoint : V C) (grad_initial : TA C) :
    List (V C) × Option (V C) × Option (TA C) :=
  let masked := interpret_backward_grad ctx (some grad_basepoint) (some grad_initial)
  (grad_path, masked.1, masked.2)

/-- The runtime environment of a `signature` call that the Python code
queries: the device and gradient flags of the path tensor, the
`_impl.hardware_concurrency()` answer (spec §6: "returns 0 if unknown") and
the configured `utility.max_parallelism()` bound — the latter two are not
under `src/`, so they are opaque inputs here. -/
structure TorchEnv where
  is_cuda : Bool
  requires_grad : Bool
  hardware_concurrency : ℕ
  max_parallelism : ℕ

/-- Python `round` applied to the quotient `num / den` of two naturals
(`int(round(float(threshold) / batch_size))`): round half to even, computed
exactly on the rational `num / den`.  (Python raises on `den = 0`; a real
call never reaches the decision with an empty batch, and the value returned
here for `den = 0` is at most 1, which the `mult < 2` guard discards.) -/
def pyRound (num den : ℕ) : ℕ :=
  let q := num / den
  let r := num % den
  if 2 * r < den then q
  else if den < 2 * r then q + 1
  else if q % 2 = 0 then q else q + 1

/-- Translation of the threshold selection of `_signature_batch_trick`
(signature_module.py lines 95-114): on the GPU the threshold is 512; on the
CPU the trick is skipped when the path does not require gradients, and also
when `hardware_concurrency()` answers 0; otherwise the threshold is the
hardware concurrency. -/
def trickThreshold (env : TorchEnv) : Option ℕ :=
  if env.is_cuda then some 512
  else if env.requires_grad = false then none
  else if env.hardware_concurrency = 0 then none
  else some env.hardware_concurrency

/-- The chunk count before the `mult < 2` guard (signature_module.py lines
119-120): `min(int(round(threshold / batch_size)), int(stream_size / 3),
max_parallelism)`. -/
def trickMultValue (threshold batch_size stream_size max_parallelism : ℕ) : ℕ :=
  min (min (pyRound threshold batch_size) (stream_size / 3)) max_parallelism

/-- Translation of the chunk-count decision of `_signature_batch_trick`
(signature_module.py lines 116-124): compute the chunk count and refuse to
chunk when it is below 2. -/
def trickMult (env : TorchEnv) (batch_size stream_size : ℕ) : Option ℕ :=
  match trickThreshold env with
  | none => none
  | some threshold =>
    let mult := trickMultValue threshold batch_size stream_size env.max_parallelism
    if mult < 2 then none else some mult

/-- Successive chunks of length `rbl`: the `view(batch, mult, rbl, channel)`
reshape of the bulk path (signature_module.py line 134). -/
def chunkStream {C : ℕ} (rbl : ℕ) : ℕ → List (V C) → List (List (V C))
  | 0, _ => []
  | m + 1, P => P.take rbl :: chunkStream rbl m (P.drop rbl)

/-- The per-chunk signatures with chained basepoints: each chunk is computed
by `_SignatureFunction.apply` with its basepoint set to the last point of
the previous chunk (the `ends` / `roll` construction of
signature_module.py lines 133-147), starting from the resolved basepoint of
the whole call. -/
def chainedSigs {C : ℕ} (inverse : Bool) : V C → List (List (V C)) → List (TA C)
  | _, [] => []
  | bp, s :: rest =>
    sigForwardOne s (.ofTensor bp) inverse none ::
      chainedSigs inverse (s.getLastD bp) rest

/-- Translation of the body of `_signature_batch_trick` (signature_module.py
lines 116-164) for one batch element.  The stream is cut into `mult` chunks
of length `stream_size / mult` plus a trailing remainder; the `ends` tensor
built by `roll`/`copy_`/`zero_` gives every chunk the last point of the
previous chunk as basepoint, the first chunk the resolved basepoint of the
call (the supplied tensor, zero for `basepoint=True`, or the first path
point for `basepoint=False`), and the remainder the last bulk point
(`basepoint_remainder`); the optional `initial` is put in front of the chunk
signatures and everything is recombined by `multi_signature_combine`. -/
def batchTrickOne {C : ℕ} (mult : ℕ) (P : List (V C)) (basepoint : Basepoint C)
    (inverse : Bool) (initial : Option (TA C)) : Option (TA C) :=
  let stream_size := P.length
  let remainder := stream_size % mult
  let reduced_bulk_length := stream_size / mult
  let bulk_length := stream_size - remainder
  let path_bulk := P.take bulk_length
  let path_remainder := P.drop bulk_length
  let b0 : V C :=
    match basepoint with
    | .ofTensor v => v
    | .ofBool true => fun _ => 0
    | .ofBool false => P.headD (fun _ => 0)
  let segs := chunkStream reduced_bulk_length mult path_bulk ++
    (if remainder = 0 then [] else [path_remainder])
  let chunks :=
    (match initial with
     | some i => [i]
     | none => []) ++ chainedSigs inverse b0 segs
  multi_signature_combine chunks inverse

/-- Collect a list of optional values, failing if any is missing. -/
def seqOption {α : Type} : List (Option α) → Option (List α)
  | [] => some []
  | o :: rest => o.bind (fun x => (seqOption rest).map (fun r => x :: r))

/-- The stream length read off `path.shape` (signature_module.py line 116). -/
def streamSize {C : ℕ} (path : List (List (V C))) : ℕ :=
  (path.headD []).length

/-- Translation of `_signature_batch_trick` (signature_module.py lines
90-164): no chunking in stream mode; otherwise chunk when the decision logic
produces a chunk count, computing every batch element independently. -/
def signature_batch_trick {C : ℕ} (env : TorchEnv) (path : List (List (V C)))
    (stream : Bool) (basepoint : Basepoint C) (inverse : Bool)
    (initial : Option (TA C)) : Option (List (TA C)) :=
  if stream then none
  else
    match trickMult env path.length (streamSize path) with
    | none => none
    | some mult => seqOption (path.map (fun P => batchTrickOne mult P basepoint inverse initial))

/-- The output of the public `signature` function: a single signature per
batch element, or a stream of signatures per batch element. -/
inductive SigOutput (C : ℕ) where
  | single (out : List (List ℚ))
  | streamed (out : List (List (List ℚ)))

/-- Translation of the dispatch in `signature` (signature_module.py lines
244-254): try the batch trick first; when it declines, run
`_SignatureFunction.apply` directly (modelled per batch element by
`sigForwardOne` / `sigForwardStreamOne`); flatten to the stored depth-`D`
coordinates.  The surrounding transposes are the (batch, stream) layout
change, which the list-of-streams representation already uses. -/
def signatureOutput {C : ℕ} (env : TorchEnv) (D : ℕ) (path : List (List (V C)))
    (stream : Bool) (basepoint : Basepoint C) (inverse : Bool)
    (initial : Option (TA C)) : SigOutput C :=
  match signature_batch_trick env path stream basepoint inverse initial with
  | some res => .single (res.map (flattenSig D))
  | none =>
    if stream then
      .streamed (path.map (fun P =>
        (sigForwardStreamOne P basepoint inverse initial).map (flattenSig D)))
    else
      .single (path.map (fun P => flattenSig D (sigForwardOne P basepoint inverse initial)))

/-- Modelled from the spec: `_impl.signature_checkargs` (not under `src/`),
per §7: reject `depth < 1`, `channels < 1`, a path too short to have an
increment after optional basepoint prepending, and ragged shapes. -/
def signatureChecksOK {C : ℕ} (path : List (List (V C))) (depth : ℕ)
    (basepoint : Basepoint C) : Bool :=
  let lenWithBase :=
    match basepoint with
    | .ofBool false => streamSize path
    | _ => streamSize path + 1
  decide (1 ≤ depth) && decide (1 ≤ C) && decide (2 ≤ lenWithBase) &&
    path.all (fun P => P.length = streamSize path)

/-- The warning text of signature_module.py lines 238-242 (abridged). -/
def initialWithoutBasepointWarning : String :=
  "Argument initial has been set but argument basepoint has not."

/-- Translation of the public `signature` entry point (signature_module.py
lines 167-254): warn when `initial` is supplied while `basepoint is False`,
validate the arguments, then dispatch.  The returned pair is the list of
warnings issued and either the result or the validation error. -/
def signatureRun {C : ℕ} (env : TorchEnv) (D : ℕ) (path : List (List (V C)))
    (stream : Bool) (basepoint : Basepoint C) (inverse : Bool)
    (initial : Option (TA C)) : List String × Except String (SigOutput C) :=
  let warns :=
    match initial, basepoint with
    | some _, .ofBool false => [initialWithoutBasepointWarning]
    | _, _ => []
  if signatureChecksOK path D basepoint then
    (warns, .ok (signatureOutput env D path stream basepoint inverse initial))
  else
    (warns, .error "invalid arguments to signature")

/-! ### Concrete example inputs used by witnesses and counterexamples -/

/-- A CPU environment with gradient tracking: 2 hardware threads. -/
def envCpuGrad : TorchEnv := ⟨false, true, 2, 8⟩

/-- A CPU environment without gradient tracking. -/
def envCpuNoGrad : TorchEnv := ⟨false, false, 8, 8⟩

/-- A CPU environment with gradient tracking whose hardware-concurrency
query answers 0. -/
def envCpuHcZero : TorchEnv := ⟨false, true, 0, 8⟩

/-- A GPU environment. -/
def envGpu : TorchEnv := ⟨true, false, 0, 8⟩

/-- A batch of one path with six identical points in one channel. -/
def pathSix : List (List (V 1)) := [List.replicate 6 (fun _ => 1)]

end Signatory

namespace Signatory

/-! ### Basic algebra lemmas -/

theorem taMul_nil {C : ℕ} (a b : TA C) : taMul a b [] = a [] * b [] := by
  simp [taMul, splits]

theorem taMul_cons {C : ℕ} (a b : TA C) (x : Fin C) (w : List (Fin C)) :
    taMul a b (x :: w) = a [] * b (x :: w) + taMul (fun u => a (x :: u)) b w := by
  simp only [taMul, splits, List.map_cons, List.map_map, List.sum_cons]
  rfl

theorem taMul_zero_left {C : ℕ} (b : TA C) (w : List (Fin C)) :
    taMul (fun _ => (0 : ℚ)) b w = 0 := by
  simp [taMul]

theorem taMul_add_left {C : ℕ} (f g c : TA C) (w : List (Fin C)) :
    taMul (fun u => f u + g u) c w = taMul f c w + taMul g c w := by
  simp only [taMul, add_mul, List.sum_map_add]

theorem taMul_smul_left {C : ℕ} (r : ℚ) (f c : TA C) (w : List (Fin C)) :
    taMul (fun u => r * f u) c w = r * taMul f c w := by
  simp only [taMul, mul_assoc, List.sum_map_mul_left]

theorem taMul_one {C : ℕ} (a : TA C) : taMul a taOne = a := by
  funext w
  induction w generalizing a with
  | nil => simp [taMul_nil, taOne]
  | cons x w ih => simp [taMul_cons, taOne, ih]

theorem one_taMul {C : ℕ} (b : TA C) : taMul taOne b = b := by
  funext w
  cases w with
  | nil => simp [taMul_nil, taOne]
  | cons x w =>
    rw [taMul_cons]
    simp [taOne, taMul_zero_left]

theorem taMul_assoc {C : ℕ} (a b c : TA C) :
    taMul (taMul a b) c = taMul a (taMul b c) := by
  funext w
  induction w generalizing a with
  | nil => simp [taMul_nil, mul_assoc]
  | cons x w ih =>
    rw [taMul_cons, taMul_cons, taMul_cons]
    have h1 : (fun u => taMul a b (x :: u)) =
        fun u => a [] * b (x :: u) + taMul (fun s => a (x :: s)) b u := by
      funext u; rw [taMul_cons]
    rw [h1]
    have h2 : taMul (fun u => a [] * b (x :: u) + taMul (fun s => a (x :: s)) b u) c w =
        taMul (fun u => a [] * b (x :: u)) c w +
          taMul (taMul (fun s => a (x :: s)) b) c w := by
      exact taMul_add_left _ _ _ w
    rw [h2, taMul_smul_left, ih (fun s => a (x :: s)), taMul_nil]
    ring

/-- The stored (low-degree) coordinates of a product depend only on the
stored coordinates of the factors: truncation at any depth is restriction in
this model. -/
theorem taMul_agree_of_low_agree {C D : ℕ} (a a' b b' : TA C)
    (ha : ∀ w : List (Fin C), w.length ≤ D → a w = a' w)
    (hb : ∀ w : List (Fin C), w.length ≤ D → b w = b' w) :
    ∀ w : List (Fin C), w.length ≤ D → taMul a b w = taMul a' b' w := by
  have hmem : ∀ (w : List (Fin C)) (p : List (Fin C) × List (Fin C)),
      p ∈ splits w → p.1 ++ p.2 = w := by
    intro w
    induction w with
    | nil => intro p hp; simp [splits] at hp; simp [hp]
    | cons x w ih =>
      intro p hp
      simp only [splits, List.mem_cons, List.mem_map] at hp
      rcases hp with rfl | ⟨q, hq, rfl⟩
      · rfl
      · simp [ih q hq]
  intro w hw
  simp only [taMul]
  congr 1
  apply List.map_congr_left
  intro p hp
  have hlen := hmem w p hp
  have h1 : p.1.length ≤ D := by
    have : p.1.length + p.2.length = w.length := by
      rw [← List.length_append, hlen]
    omega
  have h2 : p.2.length ≤ D := by
    have : p.1.length + p.2.length = w.length := by
      rw [← List.length_append, hlen]
    omega
  rw [ha p.1 h1, hb p.2 h2]

theorem unitize_eq_of_unit {C : ℕ} (a : TA C) (ha : a [] = 1) : unitize a = a := by
  funext w
  cases w with
  | nil => simp [unitize, ha]
  | cons x w => simp [unitize]

theorem taMul_unit_val {C : ℕ} (a b : TA C) : taMul a b [] = a [] * b [] :=
  taMul_nil a b

theorem sigExp_unit_val {C : ℕ} (d : V C) : sigExp d [] = 1 := by
  simp [sigExp]

theorem sigExp_zero {C : ℕ} : sigExp (fun _ => (0 : ℚ)) = taOne (C := C) := by
  funext w
  cases w with
  | nil => simp [sigExp, taOne]
  | cons x w => simp [sigExp, taOne]

/-! ### Properties of the increment fold -/

theorem foldl_taMulExp_eq {C : ℕ} (l : List (V C)) (s : TA C) :
    l.foldl (fun s d => taMul s (sigExp d)) s = taMul s (sigOfIncrements l) := by
  induction l generalizing s with
  | nil => simp [sigOfIncrements, taMul_one]
  | cons d l ih =>
    show (l.foldl (fun s d => taMul s (sigExp d)) (taMul s (sigExp d))) = _
    rw [ih]
    have h2 : sigOfIncrements (d :: l) = taMul (sigExp d) (sigOfIncrements l) := by
      show (l.foldl (fun s d => taMul s (sigExp d)) (taMul taOne (sigExp d))) = _
      rw [ih, one_taMul]
    rw [h2, taMul_assoc]

theorem sigOfIncrements_append {C : ℕ} (l1 l2 : List (V C)) :
    sigOfIncrements (l1 ++ l2) = taMul (sigOfIncrements l1) (sigOfIncrements l2) := by
  show ((l1 ++ l2).foldl (fun s d => taMul s (sigExp d)) taOne) = _
  rw [List.foldl_append]
  exact foldl_taMulExp_eq l2 _

theorem sigOfIncrements_unit_val {C : ℕ} (l : List (V C)) : sigOfIncrements l [] = 1 := by
  have h : ∀ (l : List (V C)) (a : TA C),
      (l.foldl (fun s d => taMul s (sigExp d)) a) [] = a [] := by
    intro l
    induction l with
    | nil => intro a; rfl
    | cons d l ih =>
      intro a
      show (l.foldl (fun s d => taMul s (sigExp d)) (taMul a (sigExp d))) [] = a []
      rw [ih, taMul_nil, sigExp_unit_val, mul_one]
  have := h l taOne
  simpa [sigOfIncrements, taOne] using this

theorem sigOfIncrements_zero_cons {C : ℕ} (l : List (V C)) :
    sigOfIncrements ((fun _ => (0 : ℚ)) :: l) = sigOfIncrements l := by
  show (l.foldl (fun s d => taMul s (sigExp d)) (taMul taOne (sigExp fun _ => (0 : ℚ)))) = _
  rw [sigExp_zero, taMul_one]
  rfl

theorem sigOfIncrements_append_zero {C : ℕ} (l : List (V C)) :
    sigOfIncrements (l ++ [fun _ => (0 : ℚ)]) = sigOfIncrements l := by
  rw [sigOfIncrements_append]
  have h : sigOfIncrements [fun _ => (0 : ℚ)] = taOne (C := C) := by
    show taMul taOne (sigExp fun _ => (0 : ℚ)) = taOne
    rw [sigExp_zero, taMul_one]
  rw [h, taMul_one]

/-! ### Chen's identity for the chunked computation -/

theorem pathIncrements_append {C : ℕ} (x : V C) (l1 l2 : List (V C)) :
    pathIncrements ((x :: l1) ++ l2) =
      pathIncrements (x :: l1) ++ pathIncrements (l1.getLastD x :: l2) := by
  induction l1 generalizing x with
  | nil => simp [pathIncrements]
  | cons y t ih =>
    show pathIncrements (x :: y :: (t ++ l2)) = _
    rw [show pathIncrements (x :: y :: (t ++ l2)) =
        (fun i => y i - x i) :: pathIncrements (y :: (t ++ l2)) from rfl]
    rw [show (y :: (t ++ l2)) = (y :: t) ++ l2 from rfl, ih y]
    rw [List.getLastD_cons]
    rfl

theorem foldl_taMul_eq {C : ℕ} (l : List (TA C)) (s : TA C) :
    l.foldl taMul s = taMul s (listProd l) := by
  induction l generalizing s with
  | nil => simp [listProd, taMul_one]
  | cons t l ih =>
    show (l.foldl taMul (taMul s t)) = _
    rw [ih]
    have h2 : listProd (t :: l) = taMul t (listProd l) := by
      show (l.foldl taMul (taMul taOne t)) = _
      rw [ih, one_taMul]
    rw [h2, taMul_assoc]

theorem listProd_cons {C : ℕ} (t : TA C) (l : List (TA C)) :
    listProd (t :: l) = taMul t (listProd l) := by
  show (l.foldl taMul (taMul taOne t)) = _
  rw [foldl_taMul_eq, one_taMul]

theorem listProd_concat {C : ℕ} (l : List (TA C)) (t : TA C) :
    listProd (l ++ [t]) = taMul (listProd l) t := by
  show ((l ++ [t]).foldl taMul taOne) = _
  rw [List.foldl_append]
  rfl

theorem sigForwardOne_tensor_eval {C : ℕ} (s : List (V C)) (bp : V C) (inverse : Bool) :
    sigForwardOne s (.ofTensor bp) inverse none =
      sigOfIncrements (pathIncrements
        (if inverse then (bp :: s).reverse else bp :: s)) := by
  cases inverse <;> rfl

theorem sigForwardOne_none_unit {C : ℕ} (s : List (V C)) (bp : Basepoint C)
    (inverse : Bool) : sigForwardOne s bp inverse none [] = 1 := by
  cases inverse <;> exact sigOfIncrements_unit_val _

theorem chainedSigs_unit {C : ℕ} (inverse : Bool) :
    ∀ (segs : List (List (V C))) (bp : V C),
      ∀ t ∈ chainedSigs inverse bp segs, t [] = 1 := by
  intro segs
  induction segs with
  | nil => intro bp t ht; simp [chainedSigs] at ht
  | cons s rest ih =>
    intro bp t ht
    simp only [chainedSigs, List.mem_cons] at ht
    rcases ht with rfl | ht
    · exact sigForwardOne_none_unit s _ inverse
    · exact ih _ t ht

theorem chainedSigs_ne_nil {C : ℕ} (inverse : Bool) (bp : V C)
    (segs : List (List (V C))) (h : segs ≠ []) :
    chainedSigs inverse bp segs ≠ [] := by
  cases segs with
  | nil => exact absurd rfl h
  | cons s rest => simp [chainedSigs]

/-- Chen's identity for the forward chunked computation: the product of the
chunk signatures, each computed with basepoint the last point of the
previous chunk, is the signature of the whole path. -/
theorem chainedSigs_forward {C : ℕ} :
    ∀ (segs : List (List (V C))) (b0 : V C),
      listProd (chainedSigs false b0 segs) =
        sigOfIncrements (pathIncrements (b0 :: segs.flatten)) := by
  intro segs
  induction segs with
  | nil => intro b0; rfl
  | cons s rest ih =>
    intro b0
    rw [show chainedSigs false b0 (s :: rest) =
        sigForwardOne s (.ofTensor b0) false none ::
          chainedSigs false (s.getLastD b0) rest from rfl]
    rw [listProd_cons, ih, sigForwardOne_tensor_eval]
    rw [show (s :: rest).flatten = s ++ rest.flatten from rfl]
    rw [show b0 :: (s ++ rest.flatten) = (b0 :: s) ++ rest.flatten from rfl]
    rw [pathIncrements_append b0 s rest.flatten, sigOfIncrements_append]
    rfl

/-- Chen's identity for the inverse chunked computation: the product of the
reversed list of inverse chunk signatures is the inverse signature of the
whole path. -/
theorem chainedSigs_inverse {C : ℕ} :
    ∀ (segs : List (List (V C))) (b0 : V C), (∀ s ∈ segs, s ≠ []) →
      listProd ((chainedSigs true b0 segs).reverse) =
        sigOfIncrements (pathIncrements ((b0 :: segs.flatten).reverse)) := by
  intro segs
  induction segs with
  | nil => intro b0 _; rfl
  | cons s rest ih =>
    intro b0 hne
    have hs : s ≠ [] := hne s (by simp)
    rcases (List.eq_nil_or_concat s).resolve_left hs with ⟨s0, e, rfl⟩
    rw [List.concat_eq_append] at *
    have hlast : (s0 ++ [e]).getLastD b0 = e := List.getLastD_concat ..
    rw [show chainedSigs true b0 ((s0 ++ [e]) :: rest) =
        sigForwardOne (s0 ++ [e]) (.ofTensor b0) true none ::
          chainedSigs true ((s0 ++ [e]).getLastD b0) rest from rfl]
    rw [hlast, List.reverse_cons, listProd_concat]
    cases rest with
    | nil =>
      rw [show chainedSigs true e ([] : List (List (V C))) = [] from rfl]
      rw [show (([] : List (TA C))).reverse = [] from rfl]
      rw [show listProd ([] : List (TA C)) = taOne from rfl, one_taMul,
        sigForwardOne_tensor_eval]
      simp
    | cons s1 rest1 =>
      have hrest : ∀ t ∈ s1 :: rest1, t ≠ [] := by
        intro t ht
        exact hne t (List.mem_cons_of_mem _ ht)
      have hJ : (s1 :: rest1).flatten ≠ [] := by
        have hs1 : s1 ≠ [] := hrest s1 (by simp)
        simp only [List.flatten_cons]
        intro hcontra
        exact hs1 (List.append_eq_nil.1 hcontra).1
      have hJr : ((s1 :: rest1).flatten).reverse ≠ [] := by
        rw [ne_eq, List.reverse_eq_nil_iff]
        exact hJ
      rcases List.exists_cons_of_ne_nil hJr with ⟨j0, jt, hJrev⟩
      rw [ih e hrest]
      -- rewrite the big reversed list into two incremental segments
      have hsplit : ((b0 :: ((s0 ++ [e]) ++ (s1 :: rest1).flatten)).reverse) =
          (((s1 :: rest1).flatten).reverse ++ [e]) ++ (s0.reverse ++ [b0]) := by
        simp
      have hsplit2 : ((e :: (s1 :: rest1).flatten).reverse) =
          ((s1 :: rest1).flatten).reverse ++ [e] := by
        simp
      rw [show ((s0 ++ [e]) :: (s1 :: rest1)).flatten =
          (s0 ++ [e]) ++ (s1 :: rest1).flatten from rfl]
      rw [hsplit, hJrev]
      rw [show (j0 :: jt) ++ [e] ++ (s0.reverse ++ [b0]) =
          (j0 :: (jt ++ [e])) ++ (s0.reverse ++ [b0]) by simp]
      rw [pathIncrements_append j0 (jt ++ [e]) (s0.reverse ++ [b0])]
      rw [List.getLastD_concat, sigOfIncrements_append]
      rw [hsplit2, hJrev]
      rw [show (j0 :: (jt ++ [e])) = (j0 :: jt) ++ [e] by simp]
      rw [sigForwardOne_tensor_eval]
      rw [show (e :: (s0.reverse ++ [b0])) = ((b0 :: (s0 ++ [e]))).reverse by simp]
      rfl

/-! ### Bridging the combine fold to the tensor-algebra product -/

theorem combineMul_eq_taMul {C : ℕ} (a b : TA C) (ha : a [] = 1) (hb : b [] = 1) :
    combineMul a b = taMul a b := by
  rw [combineMul, unitize_eq_of_unit a ha, unitize_eq_of_unit b hb]

theorem foldl_combineMul_eq {C : ℕ} (l : List (TA C)) :
    ∀ a : TA C, a [] = 1 → (∀ t ∈ l, t [] = 1) →
      l.foldl combineMul a = l.foldl taMul a := by
  induction l with
  | nil => intro a _ _; rfl
  | cons t r ih =>
    intro a ha hl
    have ht : t [] = 1 := hl t (by simp)
    show (r.foldl combineMul (combineMul a t)) = (r.foldl taMul (taMul a t))
    rw [combineMul_eq_taMul a t ha ht]
    refine ih (taMul a t) ?_ (fun x hx => hl x (List.mem_cons_of_mem _ hx))
    rw [taMul_nil, ha, ht, mul_one]

theorem listProd_unit {C : ℕ} (l : List (TA C)) (hl : ∀ t ∈ l, t [] = 1) :
    listProd l [] = 1 := by
  have h : ∀ (l : List (TA C)) (a : TA C), a [] = 1 → (∀ t ∈ l, t [] = 1) →
      (l.foldl taMul a) [] = 1 := by
    intro l
    induction l with
    | nil => intro a ha _; exact ha
    | cons t r ih =>
      intro a ha hl
      refine ih (taMul a t) ?_ (fun x hx => hl x (List.mem_cons_of_mem _ hx))
      rw [taMul_nil, ha, hl t (by simp), mul_one]
  exact h l taOne rfl hl

theorem scf_eq_listProd {C : ℕ} (l : List (TA C)) (hne : l ≠ [])
    (hl : ∀ t ∈ l, t [] = 1) :
    signature_combine_forward l = some (listProd l) := by
  cases l with
  | nil => exact absurd rfl hne
  | cons c rest =>
    show some (rest.foldl combineMul c) = _
    rw [foldl_combineMul_eq rest c (hl c (by simp))
      (fun x hx => hl x (List.mem_cons_of_mem _ hx))]
    rw [foldl_taMul_eq, ← listProd_cons]

theorem scf_cons_initial {C : ℕ} (i : TA C) (l : List (TA C)) (hne : l ≠ [])
    (hl : ∀ t ∈ l, t [] = 1) :
    signature_combine_forward (i :: l) = some (taMul (unitize i) (listProd l)) := by
  cases l with
  | nil => exact absurd rfl hne
  | cons c rest =>
    show some (rest.foldl combineMul (combineMul i c)) = _
    have hc : c [] = 1 := hl c (by simp)
    have hrest : ∀ t ∈ rest, t [] = 1 := fun x hx => hl x (List.mem_cons_of_mem _ hx)
    have h1 : combineMul i c = taMul (unitize i) c := by
      rw [combineMul, unitize_eq_of_unit c hc]
    have h2 : (taMul (unitize i) c) [] = 1 := by
      rw [taMul_nil, hc, mul_one]
      rfl
    rw [h1, foldl_combineMul_eq rest _ h2 hrest, foldl_taMul_eq, taMul_assoc,
      ← listProd_cons]

theorem scf_concat_initial {C : ℕ} (l : List (TA C)) (i : TA C) (hne : l ≠ [])
    (hl : ∀ t ∈ l, t [] = 1) :
    signature_combine_forward (l ++ [i]) = some (taMul (listProd l) (unitize i)) := by
  cases l with
  | nil => exact absurd rfl hne
  | cons c rest =>
    show some ((rest ++ [i]).foldl combineMul c) = _
    rw [List.foldl_append]
    have hc : c [] = 1 := hl c (by simp)
    have hrest : ∀ t ∈ rest, t [] = 1 := fun x hx => hl x (List.mem_cons_of_mem _ hx)
    rw [foldl_combineMul_eq rest c hc hrest, foldl_taMul_eq]
    show some (combineMul (taMul c (listProd rest)) i) = _
    have hu : (taMul c (listProd rest)) [] = 1 := by
      rw [taMul_nil, hc, listProd_unit rest hrest, mul_one]
    rw [show combineMul (taMul c (listProd rest)) i =
        taMul (unitize (taMul c (listProd rest))) (unitize i) from rfl]
    rw [unitize_eq_of_unit _ hu, ← listProd_cons]

/-- The chunks-with-chained-basepoints recombination equals the direct
signature of the concatenated stream, with the optional `initial` on the
side determined by `inverse`: the core equivalence behind the batch trick. -/
theorem msc_chainedSigs {C : ℕ} (b0 : V C) (segs : List (List (V C)))
    (inverse : Bool) (initial : Option (TA C)) (hsegs : segs ≠ [])
    (hne : ∀ s ∈ segs, s ≠ []) :
    multi_signature_combine
        ((match initial with
          | some i => [i]
          | none => []) ++ chainedSigs inverse b0 segs) inverse =
      some (sigForwardOne segs.flatten (.ofTensor b0) inverse initial) := by
  have hcne : chainedSigs inverse b0 segs ≠ [] := chainedSigs_ne_nil inverse b0 segs hsegs
  have hcunit : ∀ t ∈ chainedSigs inverse b0 segs, t [] = 1 :=
    chainedSigs_unit inverse segs b0
  cases inverse with
  | false =>
    cases initial with
    | none =>
      show signature_combine_forward (chainedSigs false b0 segs) = _
      rw [scf_eq_listProd _ hcne hcunit, chainedSigs_forward]
      rfl
    | some i =>
      show signature_combine_forward (i :: chainedSigs false b0 segs) = _
      rw [scf_cons_initial i _ hcne hcunit, chainedSigs_forward]
      rfl
  | true =>
    have hrne : (chainedSigs true b0 segs).reverse ≠ [] := by
      rw [ne_eq, List.reverse_eq_nil_iff]
      exact hcne
    have hrunit : ∀ t ∈ (chainedSigs true b0 segs).reverse, t [] = 1 := by
      intro t ht
      exact hcunit t (List.mem_reverse.1 ht)
    cases initial with
    | none =>
      show signature_combine_forward (chainedSigs true b0 segs).reverse = _
      rw [scf_eq_listProd _ hrne hrunit, chainedSigs_inverse segs b0 hne]
      rfl
    | some i =>
      show signature_combine_forward ((i :: chainedSigs true b0 segs).reverse) = _
      rw [List.reverse_cons, scf_concat_initial _ i hrne hrunit,
        chainedSigs_inverse segs b0 hne]
      rfl

/-! ### The chunk decomposition used by the batch trick -/

theorem chunkStream_flatten {C : ℕ} (rbl : ℕ) :
    ∀ (m : ℕ) (P : List (V C)), (chunkStream rbl m P).flatten = P.take (m * rbl) := by
  intro m
  induction m with
  | zero => intro P; simp [chunkStream]
  | succ m ih =>
    intro P
    show (P.take rbl :: chunkStream rbl m (P.drop rbl)).flatten = _
    rw [List.flatten_cons, ih]
    rw [← List.take_add]
    congr 1
    ring

theorem chunkStream_length {C : ℕ} (rbl : ℕ) :
    ∀ (m : ℕ) (P : List (V C)), (chunkStream rbl m P).length = m := by
  intro m
  induction m with
  | zero => intro P; rfl
  | succ m ih => intro P; simp [chunkStream, ih]

theorem chunkStream_ne_nil {C : ℕ} (rbl : ℕ) (h1 : 1 ≤ rbl) :
    ∀ (m : ℕ) (P : List (V C)), m * rbl ≤ P.length →
      ∀ s ∈ chunkStream rbl m P, s ≠ [] := by
  intro m
  induction m with
  | zero => intro P _ s hs; simp [chunkStream] at hs
  | succ m ih =>
    intro P hlen s hs
    simp only [chunkStream, List.mem_cons] at hs
    rcases hs with rfl | hs
    · have hP : 1 ≤ P.length := by
        have : (m + 1) * rbl = m * rbl + rbl := by ring
        omega
      have : (P.take rbl).length = min rbl P.length := by simp
      intro hcontra
      rw [hcontra] at this
      simp at this
      omega
    · refine ih (P.drop rbl) ?_ s hs
      have : (m + 1) * rbl = m * rbl + rbl := by ring
      simp only [List.length_drop]
      omega

theorem sig_incs_headD_cons {C : ℕ} (P : List (V C)) (d : V C) (hP : P ≠ []) :
    sigOfIncrements (pathIncrements (P.headD d :: P)) =
      sigOfIncrements (pathIncrements P) := by
  rcases List.exists_cons_of_ne_nil hP with ⟨h0, t, rfl⟩
  show sigOfIncrements (pathIncrements (h0 :: h0 :: t)) = _
  rw [show pathIncrements (h0 :: h0 :: t) =
      (fun i => h0 i - h0 i) :: pathIncrements (h0 :: t) from rfl]
  rw [show (fun i => h0 i - h0 i) = (fun _ : Fin C => (0 : ℚ)) from
    funext (fun i => sub_self (h0 i))]
  exact sigOfIncrements_zero_cons _

theorem sig_incs_headD_reverse {C : ℕ} (P : List (V C)) (d : V C) (hP : P ≠ []) :
    sigOfIncrements (pathIncrements ((P.headD d :: P).reverse)) =
      sigOfIncrements (pathIncrements P.reverse) := by
  rcases List.exists_cons_of_ne_nil hP with ⟨h0, t, rfl⟩
  show sigOfIncrements (pathIncrements ((h0 :: h0 :: t)).reverse) = _
  rw [show ((h0 :: h0 :: t)).reverse = (h0 :: t).reverse ++ [h0] from
    List.reverse_cons _ _]
  have hrne : (h0 :: t).reverse ≠ [] := by
    rw [ne_eq, List.reverse_eq_nil_iff]
    simp
  rcases List.exists_cons_of_ne_nil hrne with ⟨q0, qt, hq⟩
  rw [hq, pathIncrements_append q0 qt [h0]]
  have hlast : qt.getLastD q0 = h0 := by
    have h1 : (q0 :: qt).getLastD h0 = qt.getLastD q0 := List.getLastD_cons ..
    have h2 : (q0 :: qt).getLastD h0 = h0 := by
      rw [← hq]
      rw [List.getLastD_eq_getLast?, List.getLast?_reverse]
      rfl
    rw [← h1, h2]
  rw [hlast]
  rw [show pathIncrements (h0 :: [h0]) = [fun i => h0 i - h0 i] from rfl]
  rw [show (fun i => h0 i - h0 i) = (fun _ : Fin C => (0 : ℚ)) from
    funext (fun i => sub_self (h0 i))]
  rw [sigOfIncrements_append_zero, ← hq]

theorem sigForwardOne_headD {C : ℕ} (P : List (V C)) (inverse : Bool)
    (initial : Option (TA C)) (hP : P ≠ []) :
    sigForwardOne P (.ofTensor (P.headD (fun _ => 0))) inverse initial =
      sigForwardOne P (.ofBool false) inverse initial := by
  cases inverse with
  | false =>
    have hcore := sig_incs_headD_cons P (fun _ => 0) hP
    cases initial with
    | none => exact hcore
    | some i => exact congrArg (fun s => taMul (unitize i) s) hcore
  | true =>
    have hcore := sig_incs_headD_reverse P (fun _ => 0) hP
    cases initial with
    | none => exact hcore
    | some i => exact congrArg (fun s => taMul s (unitize i)) hcore

/-- Resolving the basepoint argument into the explicit first chunk basepoint
used by the batch trick (`ends[:, 0]`) does not change the signature: a
supplied tensor resolves to itself, `True` to the zero point, `False` to the
first path point (whose extra increment vanishes). -/
theorem sigForwardOne_resolve {C : ℕ} (P : List (V C)) (inverse : Bool)
    (initial : Option (TA C)) (basepoint : Basepoint C) (hP : P ≠ []) :
    sigForwardOne P
        (.ofTensor (match basepoint with
          | .ofTensor v => v
          | .ofBool true => fun _ => 0
          | .ofBool false => P.headD (fun _ => 0))) inverse initial =
      sigForwardOne P basepoint inverse initial := by
  cases basepoint with
  | ofTensor v => rfl
  | ofBool b =>
    cases b with
    | true => rfl
    | false => exact sigForwardOne_headD P inverse initial hP

/-- The chunked computation of one batch element agrees exactly with the
direct sequential computation, under the structural conditions the decision
logic guarantees when it chunks (`2 ≤ mult` and `mult ≤ stream_size / 3`,
here in the form `3 * mult ≤ stream_size`). -/
theorem batchTrickOne_correct {C : ℕ} (mult : ℕ) (P : List (V C))
    (basepoint : Basepoint C) (inverse : Bool) (initial : Option (TA C))
    (h2 : 2 ≤ mult) (h3 : 3 * mult ≤ P.length) :
    batchTrickOne mult P basepoint inverse initial =
      some (sigForwardOne P basepoint inverse initial) := by
  have hP : P ≠ [] := by
    intro h
    rw [h] at h3
    simp at h3
    omega
  have hmpos : 0 < mult := by omega
  have hrbl1 : 1 ≤ P.length / mult := (Nat.le_div_iff_mul_le hmpos).2 (by omega)
  have hmod : P.length % mult < mult := Nat.mod_lt _ hmpos
  have hdm := Nat.div_add_mod P.length mult
  have hbl : (P.take (P.length - P.length % mult)).length =
      P.length - P.length % mult := by
    simp
  have hmr : mult * (P.length / mult) = P.length - P.length % mult := by omega
  have hflatbulk :
      (chunkStream (P.length / mult) mult
        (P.take (P.length - P.length % mult))).flatten =
      P.take (P.length - P.length % mult) := by
    rw [chunkStream_flatten, hmr]
    simp [List.take_take]
  have hflat :
      (chunkStream (P.length / mult) mult (P.take (P.length - P.length % mult)) ++
        (if P.length % mult = 0 then []
         else [P.drop (P.length - P.length % mult)])).flatten = P := by
    rw [List.flatten_append, hflatbulk]
    by_cases hr : P.length % mult = 0
    · rw [if_pos hr]
      simp [hr]
    · rw [if_neg hr]
      rw [show ([P.drop (P.length - P.length % mult)] :
          List (List (V C))).flatten = P.drop (P.length - P.length % mult) by simp]
      exact List.take_append_drop _ _
  have hsegsne :
      (chunkStream (P.length / mult) mult (P.take (P.length - P.length % mult)) ++
        (if P.length % mult = 0 then []
         else [P.drop (P.length - P.length % mult)])) ≠ [] := by
    intro hc
    have hlen := congrArg List.length hc
    rw [List.length_append, chunkStream_length] at hlen
    simp at hlen
    omega
  have hallne : ∀ s ∈
      (chunkStream (P.length / mult) mult (P.take (P.length - P.length % mult)) ++
        (if P.length % mult = 0 then []
         else [P.drop (P.length - P.length % mult)])), s ≠ [] := by
    intro s hs
    rcases List.mem_append.1 hs with h | h
    · refine chunkStream_ne_nil _ hrbl1 mult _ ?_ s h
      rw [hbl]
      omega
    · by_cases hr : P.length % mult = 0
      · rw [if_pos hr] at h
        simp at h
      · rw [if_neg hr] at h
        simp only [List.mem_singleton] at h
        subst h
        intro hc
        have hlen := congrArg List.length hc
        simp at hlen
        omega
  have key := msc_chainedSigs
    (match basepoint with
      | .ofTensor v => v
      | .ofBool true => fun _ => 0
      | .ofBool false => P.headD (fun _ => 0))
    (chunkStream (P.length / mult) mult (P.take (P.length - P.length % mult)) ++
      (if P.length % mult = 0 then []
       else [P.drop (P.length - P.length % mult)]))
    inverse initial hsegsne hallne
  have hrfl : batchTrickOne mult P basepoint inverse initial =
      multi_signature_combine
        ((match initial with
          | some i => [i]
          | none => []) ++
          chainedSigs inverse
            (match basepoint with
              | .ofTensor v => v
              | .ofBool true => fun _ => 0
              | .ofBool false => P.headD (fun _ => 0))
            (chunkStream (P.length / mult) mult
                (P.take (P.length - P.length % mult)) ++
              (if P.length % mult = 0 then []
               else [P.drop (P.length - P.length % mult)]))) inverse := rfl
  rw [hrfl, key, hflat, sigForwardOne_resolve P inverse initial basepoint hP]

/-- Unpacking a positive chunk-count decision: the guard gives `2 ≤ m`, and
the `min` with `stream_size / 3` bounds the chunk count. -/
theorem trickMult_eq_some {env : TorchEnv} {N L m : ℕ}
    (h : trickMult env N L = some m) : 2 ≤ m ∧ m ≤ L / 3 := by
  unfold trickMult at h
  cases ht : trickThreshold env with
  | none =>
    rw [ht] at h
    exact absurd h (by simp)
  | some t =>
    rw [ht] at h
    have h2 : (if trickMultValue t N L env.max_parallelism < 2 then none
        else some (trickMultValue t N L env.max_parallelism)) = some m := h
    by_cases hlt : trickMultValue t N L env.max_parallelism < 2
    · rw [if_pos hlt] at h2
      exact absurd h2 (by simp)
    · rw [if_neg hlt] at h2
      have hm := Option.some.inj h2
      subst hm
      refine ⟨by omega, ?_⟩
      exact le_trans (min_le_left _ _) (min_le_right _ _)

theorem seqOption_map_eq {α β : Type} (l : List α) (f : α → Option β) (g : α → β)
    (h : ∀ x ∈ l, f x = some (g x)) : seqOption (l.map f) = some (l.map g) := by
  induction l with
  | nil => rfl
  | cons x t ih =>
    show (f x).bind (fun v => (seqOption (t.map f)).map (fun r => v :: r)) = _
    rw [h x (by simp), ih (fun y hy => h y (List.mem_cons_of_mem _ hy))]
    rfl

/-- C2: whenever the batch-parallel chunking path returns a value, that
value is exactly (in exact arithmetic, i.e. up to floating-point
associativity) the direct sequential computation on every batch element, for
every basepoint, inverse and initial argument: deciding for or against
chunking never changes the numerical result. -/
theorem signature_batch_trick_agrees {C : ℕ} (env : TorchEnv)
    (path : List (List (V C))) (basepoint : Basepoint C) (inverse : Bool)
    (initial : Option (TA C)) (mult : ℕ)
    (hshape : ∀ P ∈ path, P.length = streamSize path)
    (hm : trickMult env path.length (streamSize path) = some mult) :
    signature_batch_trick env path false basepoint inverse initial =
      some (path.map (fun P => sigForwardOne P basepoint inverse initial)) := by
  obtain ⟨hm2, hm3⟩ := trickMult_eq_some hm
  have h33 : ∀ P ∈ path, 3 * mult ≤ P.length := by
    intro P hP
    rw [hshape P hP]
    have := (Nat.le_div_iff_mul_le (by omega : 0 < 3)).1 hm3
    omega
  have hun : signature_batch_trick env path false basepoint inverse initial =
      seqOption (path.map (fun P => batchTrickOne mult P basepoint inverse initial)) := by
    show (match trickMult env path.length (streamSize path) with
      | none => none
      | some m => seqOption (path.map
          (fun P => batchTrickOne m P basepoint inverse initial))) = _
    rw [hm]
  rw [hun]
  exact seqOption_map_eq path _ _
    (fun P hP => batchTrickOne_correct mult P basepoint inverse initial hm2 (h33 P hP))

/-- Witness for C2: a CPU gradient-tracking call on a batch of one path of
six points, where the decision logic picks two chunks; the trick returns
exactly the direct sequential result. -/
theorem signature_batch_trick_agrees_witness :
    (∀ P ∈ pathSix, P.length = streamSize pathSix) ∧
      trickMult envCpuGrad pathSix.length (streamSize pathSix) = some 2 ∧
      signature_batch_trick envCpuGrad pathSix false (.ofBool false) false none =
        some (pathSix.map (fun P => sigForwardOne P (.ofBool false) false none)) :=
  ⟨by decide, by decide,
    signature_batch_trick_agrees envCpuGrad pathSix (.ofBool false) false none 2
      (by decide) (by decide)⟩

/-! ### Shape lemmas -/

theorem allWords_length (C : ℕ) : ∀ k, (allWords C k).length = C ^ k := by
  intro k
  induction k with
  | zero => rfl
  | succ k ih =>
    show ((List.finRange C).flatMap
      (fun i => (allWords C k).map (fun w => i :: w))).length = _
    rw [List.length_flatMap]
    simp only [Function.comp_def, List.length_map, ih]
    rw [List.map_const', List.sum_replicate, smul_eq_mul,
      List.length_finRange, pow_succ, Nat.mul_comm]

theorem sigWords_length (C D : ℕ) : (sigWords C D).length = signature_channels C D := by
  rw [sigWords, List.length_flatMap, signature_channels]
  congr 1
  apply List.map_congr_left
  intro k _
  exact allWords_length C (k + 1)

theorem flattenSig_length {C : ℕ} (D : ℕ) (a : TA C) :
    (flattenSig D a).length = signature_channels C D := by
  rw [flattenSig, List.length_map, sigWords_length]

theorem streamFold_length {C : ℕ} :
    ∀ (l : List (V C)) (s : TA C), (streamFold s l).length = l.length := by
  intro l
  induction l with
  | nil => intro s; rfl
  | cons d t ih =>
    intro s
    show (taMul s (sigExp d) :: streamFold (taMul s (sigExp d)) t).length = _
    simp [ih]

theorem pathIncrements_length {C : ℕ} :
    ∀ l : List (V C), (pathIncrements l).length = l.length - 1 := by
  intro l
  induction l with
  | nil => rfl
  | cons x t ih =>
    cases t with
    | nil => rfl
    | cons y t2 =>
      show ((fun i => y i - x i) :: pathIncrements (y :: t2)).length = _
      rw [List.length_cons, ih]
      simp

theorem basepointPrepend_length {C : ℕ} (bp : Basepoint C) (P : List (V C)) :
    (basepointPrepend bp P).length =
      (match bp with
        | .ofBool false => P.length
        | .ofBool true => P.length + 1
        | .ofTensor _ => P.length + 1) := by
  cases bp with
  | ofBool b => cases b <;> rfl
  | ofTensor v => rfl

theorem sigForwardStreamOne_length {C : ℕ} (P : List (V C)) (bp : Basepoint C)
    (inverse : Bool) (initial : Option (TA C)) :
    (sigForwardStreamOne P bp inverse initial).length =
      (basepointPrepend bp P).length - 1 := by
  show ((streamFold taOne (pathIncrements
    (if inverse then (basepointPrepend bp P).reverse
     else basepointPrepend bp P))).map _).length = _
  rw [List.length_map, streamFold_length, pathIncrements_length]
  cases inverse <;> simp

theorem seqOption_length {α : Type} :
    ∀ (l : List (Option α)) (r : List α), seqOption l = some r → r.length = l.length := by
  intro l
  induction l with
  | nil =>
    intro r h
    have := Option.some.inj h
    rw [← this]
    rfl
  | cons o t ih =>
    intro r h
    cases o with
    | none => exact absurd h (by simp [seqOption])
    | some v =>
      have h' : (seqOption t).map (fun r => v :: r) = some r := h
      cases ht : seqOption t with
      | none =>
        rw [ht] at h'
        exact absurd h' (by simp)
      | some r2 =>
        rw [ht] at h'
        have hr := Option.some.inj h'
        rw [← hr]
        simp [ih r2 ht]

theorem signature_batch_trick_length {C : ℕ} {env : TorchEnv}
    {path : List (List (V C))} {st : Bool} {bp : Basepoint C} {inv : Bool}
    {init : Option (TA C)} {res : List (TA C)}
    (h : signature_batch_trick env path st bp inv init = some res) :
    res.length = path.length := by
  cases st with
  | true => exact absurd h (by simp [signature_batch_trick])
  | false =>
    have h' : (match trickMult env path.length (streamSize path) with
      | none => none
      | some m => seqOption (path.map (fun P => batchTrickOne m P bp inv init))) =
        some res := h
    cases hm : trickMult env path.length (streamSize path) with
    | none =>
      rw [hm] at h'
      exact absurd h' (by simp)
    | some m =>
      rw [hm] at h'
      rw [seqOption_length _ res h', List.length_map]

/-! ### Claims C3 and C6 -/

/-- C3: for a batch of `N` paths of length `L` in `C` channels,
`signature` with `stream=False` returns `N` signatures of
`signature_channels(C, D)` entries each, and with `stream=True` returns `N`
streams of `L' - 1` signatures of `signature_channels(C, D)` entries each,
where `L' = L + 1` when a basepoint is given (`True` or a tensor) and
`L' = L` otherwise. -/
theorem signature_shape {C : ℕ} (env : TorchEnv) (D : ℕ) (path : List (List (V C)))
    (basepoint : Basepoint C) (inverse : Bool) (initial : Option (TA C)) (N L : ℕ)
    (hN : path.length = N) (hL : ∀ P ∈ path, P.length = L) :
    (∃ o, signatureOutput env D path false basepoint inverse initial =
        SigOutput.single o ∧ o.length = N ∧
        ∀ row ∈ o, row.length = signature_channels C D) ∧
      (∃ o, signatureOutput env D path true basepoint inverse initial =
        SigOutput.streamed o ∧ o.length = N ∧
        ∀ mat ∈ o,
          mat.length = (match basepoint with
            | .ofBool false => L
            | _ => L + 1) - 1 ∧
          ∀ row ∈ mat, row.length = signature_channels C D) := by
  constructor
  · cases h : signature_batch_trick env path false basepoint inverse initial with
    | some res =>
      refine ⟨res.map (flattenSig D), ?_, ?_, ?_⟩
      · show (match signature_batch_trick env path false basepoint inverse initial with
          | some res => SigOutput.single (res.map (flattenSig D))
          | none => _) = _
        rw [h]
      · rw [List.length_map, signature_batch_trick_length h, hN]
      · intro row hrow
        rcases List.mem_map.1 hrow with ⟨a, _, rfl⟩
        exact flattenSig_length D a
    | none =>
      refine ⟨path.map (fun P => flattenSig D (sigForwardOne P basepoint inverse initial)),
        ?_, ?_, ?_⟩
      · show (match signature_batch_trick env path false basepoint inverse initial with
          | some res => SigOutput.single (res.map (flattenSig D))
          | none => _) = _
        rw [h]
        rfl
      · simp [hN]
      · intro row hrow
        rcases List.mem_map.1 hrow with ⟨P, _, rfl⟩
        exact flattenSig_length D _
  · refine ⟨path.map (fun P =>
      (sigForwardStreamOne P basepoint inverse initial).map (flattenSig D)),
      rfl, by simp [hN], ?_⟩
    intro mat hmat
    rcases List.mem_map.1 hmat with ⟨P, hP, rfl⟩
    constructor
    · rw [List.length_map, sigForwardStreamOne_length, basepointPrepend_length,
        hL P hP]
      cases basepoint with
      | ofBool b => cases b <;> rfl
      | ofTensor v => rfl
    · intro row hrow
      rcases List.mem_map.1 hrow with ⟨a, _, rfl⟩
      exact flattenSig_length D a

/-- Witness for C3 at the concrete batch of one path of six points in one
channel, in both stream modes. -/
theorem signature_shape_witness :
    (∃ o, signatureOutput envCpuNoGrad 2 pathSix false (.ofBool false) false none =
        SigOutput.single o ∧ o.length = 1 ∧
        ∀ row ∈ o, row.length = signature_channels 1 2) ∧
      (∃ o, signatureOutput envCpuNoGrad 2 pathSix true (.ofBool false) false none =
        SigOutput.streamed o ∧ o.length = 1 ∧
        ∀ mat ∈ o,
          mat.length = 5 ∧
          ∀ row ∈ mat, row.length = signature_channels 1 2) :=
  ⟨(signature_shape envCpuNoGrad 2 pathSix (.ofBool false) false none 1 6 rfl
      (by decide)).1,
    (signature_shape envCpuNoGrad 2 pathSix (.ofBool false) false none 1 6 rfl
      (by decide)).2⟩

/-- C6: when `initial` is supplied and no basepoint is given
(`basepoint is False`), `signature` issues the usage warning but the
computation proceeds and returns normally; this situation is never raised as
an error. -/
theorem initial_without_basepoint_warns {C : ℕ} (env : TorchEnv) (D : ℕ)
    (path : List (List (V C))) (stream : Bool) (inverse : Bool) (i : TA C)
    (hok : signatureChecksOK path D (.ofBool false) = true) :
    (signatureRun env D path stream (.ofBool false) inverse (some i)).1 =
        [initialWithoutBasepointWarning] ∧
      ∃ o, (signatureRun env D path stream (.ofBool false) inverse (some i)).2 =
        .ok o := by
  constructor
  · simp [signatureRun, hok]
  · exact ⟨signatureOutput env D path stream (.ofBool false) inverse (some i),
      by simp [signatureRun, hok]⟩

/-- Witness for C6: a shape-valid call with `initial` supplied and
`basepoint=False` warns and returns a result. -/
theorem initial_without_basepoint_warns_witness :
    signatureChecksOK pathSix 1 (.ofBool false) = true ∧
      (signatureRun envCpuNoGrad 1 pathSix false (.ofBool false) false
          (some taOne)).1 = [initialWithoutBasepointWarning] ∧
      ∃ o, (signatureRun envCpuNoGrad 1 pathSix false (.ofBool false) false
          (some taOne)).2 = .ok o :=
  ⟨by decide,
    (initial_without_basepoint_warns envCpuNoGrad 1 pathSix false false taOne
        (by decide)).1,
    (initial_without_basepoint_warns envCpuNoGrad 1 pathSix false false taOne
        (by decide)).2⟩

/-! ### Claims C10, C5, C4, C7 -/

/-- C10: `signature_combine(sig1, sig2, input_channels, depth, inverse)`
returns exactly `multi_signature_combine([sig1, sig2], input_channels,
depth, inverse)` — the two-argument operation is the special case of the
list operation on the two-element list. -/
theorem signature_combine_is_multi {C : ℕ} (sigtensor1 sigtensor2 : TA C)
    (inverse : Bool) :
    signature_combine sigtensor1 sigtensor2 inverse =
      multi_signature_combine [sigtensor1, sigtensor2] inverse := rfl

/-- C5: with `inverse=True`, `multi_signature_combine` combines the list in
reversed order (it equals the `inverse=False` combine of the reversed list),
and with `inverse=False` the combine is the left-to-right fold of the
tensor-algebra product over the list in the given order. -/
theorem multi_signature_combine_spec {C : ℕ} (sigtensors : List (TA C)) (s : TA C)
    (rest : List (TA C)) :
    multi_signature_combine sigtensors true =
        multi_signature_combine sigtensors.reverse false ∧
      multi_signature_combine (s :: rest) false = some (rest.foldl combineMul s) := by
  constructor
  · simp [multi_signature_combine]
  · rfl

/-- C4: for `channels ≥ 1` and `depth ≥ 1` (and a tensor long enough for the
slice, as `torch.narrow` requires), `extract_signature_term` returns exactly
the slice of the last dimension starting at offset
`signature_channels(channels, depth - 1)` (which is 0 when `depth = 1`) with
length `channels ^ depth`; for `channels < 1` it fails with an error before
slicing. -/
theorem extract_signature_term_spec (sigtensor : List ℚ) (channels depth : ℕ) :
    (1 ≤ channels → 1 ≤ depth →
        signature_channels channels (depth - 1) + channels ^ depth ≤ sigtensor.length →
        extract_signature_term sigtensor channels depth =
          .ok ((sigtensor.drop (signature_channels channels (depth - 1))).take
                (channels ^ depth))) ∧
      (channels < 1 →
        extract_signature_term sigtensor channels depth =
          .error "in_channels must be at least 1") := by
  constructor
  · intro hc hd hlen
    have hc' : ¬ channels < 1 := by omega
    by_cases h1 : depth = 1
    · subst h1
      have h0 : signature_channels channels 0 = 0 := by simp [signature_channels]
      simp [extract_signature_term, torchNarrowLast, hc', h0]
      rw [h0] at hlen
      simpa using hlen
    · simp [extract_signature_term, torchNarrowLast, hc', h1, hlen]
  · intro hc
    simp [extract_signature_term, hc]

/-- Witness for C4 at a concrete input: `channels = 2`, `depth = 2`, a
6-entry signature tensor; the degree-2 block is the slice of length 4 at
offset 2.  The second conjunct exercises the `channels < 1` error branch. -/
theorem extract_signature_term_spec_witness :
    extract_signature_term [1, 2, 3, 4, 5, 6] 2 2 = .ok [3, 4, 5, 6] ∧
      extract_signature_term [1, 2, 3, 4, 5, 6] 0 2 =
        .error "in_channels must be at least 1" := by
  constructor
  · have h := (extract_signature_term_spec [1, 2, 3, 4, 5, 6] 2 2).1
      (by decide) (by decide) (by decide)
    rw [h]
    rfl
  · exact (extract_signature_term_spec [1, 2, 3, 4, 5, 6] 0 2).2 (by decide)

/-- C7: the backward pass returns a gradient with respect to `basepoint` if
and only if `basepoint` was supplied as a tensor (not `False`, not `True`),
and a gradient with respect to `initial` if and only if `initial` was
supplied as a tensor; otherwise the corresponding output is `None`. -/
theorem backward_grad_provenance {C : ℕ} (basepoint : Basepoint C)
    (initial : Option (TA C)) (grad_path : List (V C)) (grad_basepoint : V C)
    (grad_initial : TA C) :
    ((signatureFunctionBackward (interpet_forward_args basepoint initial) grad_path
          grad_basepoint grad_initial).2.1.isSome ↔
        ∃ v, basepoint = Basepoint.ofTensor v) ∧
      ((signatureFunctionBackward (interpet_forward_args basepoint initial) grad_path
          grad_basepoint grad_initial).2.2.isSome ↔ initial.isSome) := by
  constructor
  · cases basepoint with
    | ofBool b =>
      simp [signatureFunctionBackward, interpet_forward_args, interpret_backward_grad]
    | ofTensor v =>
      simp [signatureFunctionBackward, interpet_forward_args, interpret_backward_grad]
  · cases initial with
    | none =>
      simp [signatureFunctionBackward, interpet_forward_args, interpret_backward_grad]
    | some i =>
      simp [signatureFunctionBackward, interpet_forward_args, interpret_backward_grad]

/-! ### Claims C1 and C9: the batch-trick gating -/

/-- C1 (counterexample): a call on the CPU whose path requires gradient
tracking, at which the batch-parallel chunking IS used
(`_signature_batch_trick` returns a value): `signature_module.py` line 104
reads `if not path.requires_grad: return`, so on the CPU the trick is
skipped precisely when gradients are NOT required — the opposite of the
claim. -/
theorem batch_trick_used_on_cpu_with_grad :
    envCpuGrad.is_cuda = false ∧ envCpuGrad.requires_grad = true ∧
      (signature_batch_trick envCpuGrad pathSix false (.ofBool false) false
          none).isSome = true :=
  ⟨rfl, rfl, by decide⟩

/-- C1 (amended): for every call to `signature` where the path resides on
the CPU and the path does NOT require gradient tracking, the batch-parallel
chunking strategy is never used and the direct sequential algorithm is run
instead. -/
theorem batch_trick_skipped_on_cpu_without_grad {C : ℕ} (env : TorchEnv) (D : ℕ)
    (path : List (List (V C))) (stream : Bool) (basepoint : Basepoint C)
    (inverse : Bool) (initial : Option (TA C))
    (hcpu : env.is_cuda = false) (hgrad : env.requires_grad = false) :
    signature_batch_trick env path stream basepoint inverse initial = none ∧
      signatureOutput env D path stream basepoint inverse initial =
        (if stream then
          SigOutput.streamed (path.map (fun P =>
            (sigForwardStreamOne P basepoint inverse initial).map (flattenSig D)))
        else
          SigOutput.single (path.map (fun P =>
            flattenSig D (sigForwardOne P basepoint inverse initial)))) := by
  have h : signature_batch_trick env path stream basepoint inverse initial = none := by
    cases stream with
    | true => simp [signature_batch_trick]
    | false => simp [signature_batch_trick, trickMult, trickThreshold, hcpu, hgrad]
  exact ⟨h, by simp [signatureOutput, h]⟩

/-- Witness for the amended C1 at a concrete CPU no-gradient call. -/
theorem batch_trick_skipped_on_cpu_without_grad_witness :
    envCpuNoGrad.is_cuda = false ∧ envCpuNoGrad.requires_grad = false ∧
      signature_batch_trick envCpuNoGrad pathSix false (.ofBool false) false none =
        none :=
  ⟨rfl, rfl,
    (batch_trick_skipped_on_cpu_without_grad envCpuNoGrad 2 pathSix false
        (.ofBool false) false none rfl rfl).1⟩

/-- C9: the chunking never activates in stream mode; never activates on the
CPU when the hardware-concurrency query answers 0; never activates when the
computed chunk count `min(round(threshold / batch_size), stream_size / 3,
max_parallelism)` is below 2; and whenever it declines, `signature` falls
back to the direct sequential computation. -/
theorem batch_trick_gating (C : ℕ) :
    (∀ (env : TorchEnv) (path : List (List (V C))) (basepoint : Basepoint C)
        (inverse : Bool) (initial : Option (TA C)),
        signature_batch_trick env path true basepoint inverse initial = none) ∧
      (∀ (env : TorchEnv) (path : List (List (V C))) (stream : Bool)
          (basepoint : Basepoint C) (inverse : Bool) (initial : Option (TA C)),
          env.is_cuda = false → env.hardware_concurrency = 0 →
          signature_batch_trick env path stream basepoint inverse initial = none) ∧
      (∀ (env : TorchEnv) (threshold batch_size stream_size : ℕ),
          trickThreshold env = some threshold →
          trickMultValue threshold batch_size stream_size env.max_parallelism < 2 →
          trickMult env batch_size stream_size = none) ∧
      (∀ (env : TorchEnv) (D : ℕ) (path : List (List (V C))) (stream : Bool)
          (basepoint : Basepoint C) (inverse : Bool) (initial : Option (TA C)),
          signature_batch_trick env path stream basepoint inverse initial = none →
          signatureOutput env D path stream basepoint inverse initial =
            (if stream then
              SigOutput.streamed (path.map (fun P =>
                (sigForwardStreamOne P basepoint inverse initial).map (flattenSig D)))
            else
              SigOutput.single (path.map (fun P =>
                flattenSig D (sigForwardOne P basepoint inverse initial))))) := by
  refine ⟨?_, ?_, ?_, ?_⟩
  · intro env path basepoint inverse initial
    simp [signature_batch_trick]
  · intro env path stream basepoint inverse initial hcpu hhc
    cases stream with
    | true => simp [signature_batch_trick]
    | false => simp [signature_batch_trick, trickMult, trickThreshold, hcpu, hhc]
  · intro env threshold batch_size stream_size ht hlt
    simp [trickMult, ht, hlt]
  · intro env D path stream basepoint inverse initial h
    simp [signatureOutput, h]

/-- Witness for C9: each gate exercised at a concrete input (stream mode; a
zero hardware-concurrency answer; a GPU call whose chunk count rounds to 1;
and the sequential fallback). -/
theorem batch_trick_gating_witness :
    signature_batch_trick envCpuGrad pathSix true (.ofBool false) false none =
        none ∧
      signature_batch_trick envCpuHcZero pathSix false (.ofBool false) false none =
        none ∧
      trickMult envGpu 512 9 = none ∧
      signatureOutput envCpuNoGrad 1 pathSix false (.ofBool false) false none =
        SigOutput.single (pathSix.map (fun P =>
          flattenSig 1 (sigForwardOne P (.ofBool false) false none))) := by
  refine ⟨(batch_trick_gating 1).1 envCpuGrad pathSix _ _ _,
    (batch_trick_gating 1).2.1 envCpuHcZero pathSix false _ _ _ rfl rfl,
    (batch_trick_gating 1).2.2.1 envGpu 512 512 9 (by decide) (by decide), ?_⟩
  have h := (batch_trick_gating 1).2.2.2 envCpuNoGrad 1 pathSix false
    (.ofBool false) false none (by rfl)
  simpa using h

end Signatory
